import Mathlib

/-!
Verification development for `src/summarize.py` (quick-note summarizer).

Text is modelled as `List Char` (Python strings over the ASCII inputs that the
program manipulates).  Python regular-expression scanning loops are embedded as
structurally recursive functions; where a scan consumes a data-dependent amount
of input, the function takes an explicit fuel argument and the public wrapper
passes `length + 1` fuel, which always suffices because every step consumes at
least one character.  Filesystem, subprocess and HTTP effects are modelled as
explicit environment records passed to the functions that perform them.
-/

namespace QuickNote

/-- Whitespace test matching Python `str.strip` / regex `\s` on the ASCII range
(the programs inputs are ASCII; wider Unicode whitespace is not modelled). -/
def pyWS (c : Char) : Bool :=
  c == ' ' || c == '\t' || c == '\n' || c == '\r' || c == '\x0b' || c == '\x0c'

/-- Python `str.strip()`: drop leading and trailing whitespace. -/
def pyStrip (s : List Char) : List Char :=
  (((s.dropWhile pyWS).reverse.dropWhile pyWS)).reverse

/-- Boolean substring test, `needle in hay` of Python. -/
def containsSub (needle : List Char) : List Char → Bool
  | [] => needle.isEmpty
  | c :: t => needle.isPrefixOf (c :: t) || containsSub needle t

/-- Lookahead `(?=######|\Z)` of the section-splitting regex (line 95 of
`summarize.py`): the rest of the text is empty or starts with six hashes. -/
def lookB (z : List Char) : Bool :=
  z.isEmpty || "######".data.isPrefixOf z

/-- Scan for the first newline whose lookahead succeeds.  Models the lazy
`.*?\n` (with `re.DOTALL`) followed by `(?=######|\Z)`: the regex engine takes
the earliest newline after which the lookahead holds.  Returns the characters
before that newline and the rest after it. -/
def findNL : List Char → Option (List Char × List Char)
  | [] => none
  | c :: t =>
    if c == '\n' && lookB t then some ([], t)
    else (findNL t).map (fun uv => (c :: uv.1, uv.2))

/-- Match of the pattern `######\s+.*?\n(?=######|\Z)` (DOTALL) at the head of
`s`, following the backtracking order of the Python engine: the greedy `\s+`
first takes the whole whitespace run `w`; the lazy `.*?` then finds the first
acceptable newline after the run (`findNL`).  If none exists, `\s+` backtracks
and the final `\n` of the match can be the last character of the run itself,
provided at least one whitespace character remains for `\s+` and the lookahead
holds right after the run.  Returns the matched span and the rest. -/
def sectionSplitHead (s : List Char) : Option (List Char × List Char) :=
  if "######".data.isPrefixOf s then
    if ((s.drop 6).takeWhile pyWS).isEmpty then none
    else
      match findNL ((s.drop 6).dropWhile pyWS) with
      | some (u, v) =>
        some ("######".data ++ (s.drop 6).takeWhile pyWS ++ u ++ ['\n'], v)
      | none =>
        if decide (2 ≤ ((s.drop 6).takeWhile pyWS).length) &&
            ((s.drop 6).takeWhile pyWS).getLast? == some '\n' &&
            lookB ((s.drop 6).dropWhile pyWS) then
          some ("######".data ++ (s.drop 6).takeWhile pyWS,
            (s.drop 6).dropWhile pyWS)
        else none
  else none

/-- Scanning loop of `re.split` with a capturing group (line 95): walk the text
left to right; at a match emit the pending gap text and the captured match and
continue after it, otherwise move one character into the pending gap.  When the
fuel is exhausted the remaining text is dumped into the pending gap, which
never happens for the fuel passed by `pySplit`. -/
def pySplitGo : Nat → List Char → List Char → List (List Char)
  | 0, gapRev, s => [gapRev.reverse ++ s]
  | fuel + 1, gapRev, s =>
    match sectionSplitHead s with
    | some mr => gapRev.reverse :: mr.1 :: pySplitGo fuel [] mr.2
    | none =>
      match s with
      | [] => [gapRev.reverse]
      | c :: t => pySplitGo fuel (c :: gapRev) t

/-- Embedding of `re.split(r'(######\s+.*?\n)(?=######|\Z)', content, flags=re.DOTALL)`. -/
def pySplit (content : List Char) : List (List Char) :=
  pySplitGo (content.length + 1) [] content

/-- Character class `[^\s\)]` of the link pattern. -/
def urlChar (c : Char) : Bool := !pyWS c && c != ')'

/-- URL part `(https?://[^\s\)]+)\)` of the link pattern: a literal scheme,
then a maximal nonempty run of characters that are neither whitespace nor a
closing parenthesis, which must be followed by `)`. -/
def tryUrl (l : List Char) : Option (List Char) :=
  let go : List Char → List Char → Option (List Char) := fun scheme rest =>
    let run := rest.takeWhile urlChar
    if run.isEmpty then none
    else if (rest.drop run.length).head? == some ')' then some (scheme ++ run)
    else none
  if "https://".data.isPrefixOf l then go "https://".data (l.drop 8)
  else if "http://".data.isPrefixOf l then go "http://".data (l.drop 7)
  else none

/-- After an opening `[`, grow the lazy title `(.*?)` one character at a time
(never across a newline, since `re.DOTALL` is not set for this pattern),
checking at each length whether `](` followed by a URL completes the match.
`accRev` holds the title read so far, reversed. -/
def tryAB : List Char → List Char → Option (List Char × List Char)
  | [], _ => none
  | c :: t, accRev =>
    match (if c == ']' then
             match t with
             | '(' :: rest => tryUrl rest
             | _ => none
           else none) with
    | some u => some (accRev.reverse, u)
    | none => if c == '\n' then none else tryAB t (c :: accRev)

/-- Embedding of `re.search(r'\[(.*?)\]\((https?://[^\s\)]+)\)', text)`:
try each start position from the left; a match must begin with `[`. -/
def linkSearch : List Char → Option (List Char × List Char)
  | [] => none
  | '[' :: t =>
    match tryAB t [] with
    | some r => some r
    | none => linkSearch t
  | _ :: t => linkSearch t

/-- Unprocessed test of line 102: the stripped section text has at most two
newline characters and the raw section text contains `http://` or `https://`. -/
def unprocessedCheck (body : List Char) : Bool :=
  decide ((pyStrip body).count '\n' ≤ 2) &&
    (containsSub "http://".data body || containsSub "https://".data body)

/-- Result record of `extract_unprocessed_section` (the Python dict of lines
105 to 111; the unused `index` entry is omitted). -/
structure SectionInfo where
  header : List Char
  title : List Char
  url : List Char
  full_section : List Char
  deriving DecidableEq, Repr

/-- Loop of lines 97 to 111: walk the split result in (even, odd) pairs,
binding `header` to the even element and `body` to the odd one; return the
first pair whose body passes `unprocessedCheck` and yields a link match. -/
def extractLoop : List (List Char) → Option SectionInfo
  | header :: body :: rest =>
    if unprocessedCheck body then
      match linkSearch (pyStrip body) with
      | some (t, u) => some ⟨header, t, u, header ++ body⟩
      | none => extractLoop rest
    else extractLoop rest
  | _ => none

/-- Embedding of `extract_unprocessed_section` (lines 93 to 112). -/
def extract_unprocessed_section (content : List Char) : Option SectionInfo :=
  extractLoop (pySplit content)

/-- Replacement block built by `update_file_with_processed_section`
(lines 225 to 230). -/
def newSection (info : SectionInfo) (processed : List Char) : List Char :=
  info.header ++ "[".data ++ info.title ++ "](".data ++ info.url ++
    ")\n\n".data ++ processed ++ "\n\n---\n".data

/-- Scanning loop of Python `str.replace` (all occurrences, left to right,
non-overlapping).  Fuel as in `pySplitGo`; each step consumes at least one
character of `s` whenever `old` is nonempty. -/
def pyReplaceGo : Nat → List Char → List Char → List Char → List Char
  | 0, s, _, _ => s
  | fuel + 1, s, old, new =>
    if !old.isEmpty && old.isPrefixOf s then
      new ++ pyReplaceGo fuel (s.drop old.length) old new
    else
      match s with
      | [] => []
      | c :: t => c :: pyReplaceGo fuel t old new

/-- Python `content.replace(old, new)` for nonempty `old` (the program only
replaces a nonempty extracted section). -/
def pyReplace (s old new : List Char) : List Char :=
  pyReplaceGo (s.length + 1) s old new

/-- Embedding of `update_file_with_processed_section` (lines 222 to 232) as a
pure function from the current file content to the new file content; the
read and write of the note file are left to the caller. -/
def update_file_with_processed_section (content : List Char) (info : SectionInfo)
    (processed : List Char) : List Char :=
  pyReplace content info.full_section (newSection info processed)

/-! Response sanitizer, `clean_response` (lines 114 to 120): four regex passes
followed by a final strip. -/

/-- Scan for the first occurrence of `close` and return the text after it, as
needed by the lazy `.*?` between a pair of think markers. -/
def findAfterClose (close : List Char) : List Char → Option (List Char)
  | [] => none
  | c :: t =>
    if close.isPrefixOf (c :: t) then some ((c :: t).drop close.length)
    else findAfterClose close t

/-- One marker-removal pass, `re.sub(openM ++ '.*?' ++ closeM, '', text)` with
`re.DOTALL`: at each position, if the opening marker starts here and the
closing marker occurs later, delete through the first closing marker and
continue after it; otherwise emit one character and move on. -/
def subPairGo (openM closeM : List Char) : Nat → List Char → List Char
  | 0, _ => []
  | fuel + 1, s =>
    if openM.isPrefixOf s then
      match findAfterClose closeM (s.drop openM.length) with
      | some rest => subPairGo openM closeM fuel rest
      | none =>
        match s with
        | [] => []
        | c :: t => c :: subPairGo openM closeM fuel t
    else
      match s with
      | [] => []
      | c :: t => c :: subPairGo openM closeM fuel t

/-- Pass 1, `re.sub(r'<think>.*?</think>', '', text, flags=re.DOTALL)`. -/
def subThink (s : List Char) : List Char :=
  subPairGo "<think>".data "</think>".data (s.length + 1) s

/-- Pass 2, `re.sub(r'\[think\].*?\[/think\]', '', text, flags=re.DOTALL)`. -/
def subThinkBr (s : List Char) : List Char :=
  subPairGo "[think]".data "[/think]".data (s.length + 1) s

/-- Pass 3, `re.sub(r'^thinking:.*$', '', text, flags=re.MULTILINE)`: at a
line start with prefix `thinking:`, delete up to (not including) the newline;
the newline itself stays and opens the next line. -/
def subThinkLineGo : Nat → Bool → List Char → List Char
  | 0, _, _ => []
  | fuel + 1, atStart, s =>
    if atStart && "thinking:".data.isPrefixOf s then
      subThinkLineGo fuel false (s.dropWhile (fun c => c != '\n'))
    else
      match s with
      | [] => []
      | c :: t => c :: subThinkLineGo fuel (c == '\n') t

def subThinkLine (s : List Char) : List Char :=
  subThinkLineGo (s.length + 1) true s

/-- Pass 4, `re.sub(r'\n\s*\n', '\n\n', text)`: a newline whose following
whitespace run contains another newline matches; the greedy `\s*` backtracks
so the final `\n` of the match is the last newline of the run; the match is
replaced by exactly two newlines and scanning resumes after it. -/
def subBlankGo : Nat → List Char → List Char
  | 0, _ => []
  | fuel + 1, s =>
    match s with
    | [] => []
    | c :: t =>
      if c == '\n' && (t.takeWhile pyWS).any (fun d => d == '\n') then
        '\n' :: '\n' :: subBlankGo fuel
          (((t.takeWhile pyWS).reverse.takeWhile (fun d => d != '\n')).reverse
            ++ t.dropWhile pyWS)
      else c :: subBlankGo fuel t

def subBlank (s : List Char) : List Char :=
  subBlankGo (s.length + 1) s

/-- Embedding of `clean_response` (lines 114 to 120). -/
def clean_response (text : List Char) : List Char :=
  pyStrip (subBlank (subThinkLine (subThinkBr (subThink text))))

/-! Decidable observers used to state the sanitizer property. -/

/-- Soft whitespace: whitespace other than a newline. -/
def softWS (c : Char) : Bool := pyWS c && c != '\n'

/-- Head of the list is a newline. -/
def nlHead (l : List Char) : Bool := l.head? == some '\n'

/-- Three newlines separated only by soft whitespace start at the head. -/
def tripleAt (l : List Char) : Bool :=
  nlHead l && nlHead (l.tail.dropWhile softWS) &&
    nlHead ((l.tail.dropWhile softWS).tail.dropWhile softWS)

/-- Some position of the text starts three newlines separated only by soft
whitespace; such a pattern is exactly a run of two or more blank lines that
both have a nonempty line somewhere on each side. -/
def hasTriple : List Char → Bool
  | [] => false
  | c :: t => tripleAt (c :: t) || hasTriple t

/-- Newline right after the leading soft whitespace. -/
def nlAfterSoft (l : List Char) : Bool := nlHead (l.dropWhile softWS)

/-- Head (if any) is not whitespace. -/
def headNotWS (l : List Char) : Bool :=
  match l.head? with
  | some c => !pyWS c
  | none => true

/-- Last character (if any) is not whitespace. -/
def lastNotWS (l : List Char) : Bool :=
  match l.getLast? with
  | some c => !pyWS c
  | none => true

/-! Observers of the extraction loop used to state its characterization. -/

/-- Consecutive (even, odd) index pairs of the split result, exactly the pairs
visited by the loop `for i in range(0, len(sections)-1, 2)`. -/
def pairsOf : List (List Char) → List (List Char × List Char)
  | h :: b :: rest => (h, b) :: pairsOf rest
  | _ => []

/-- Modelled from the amended claim: a visited pair yields an entry exactly
when the odd element (the whole matched section, heading line included) passes
`unprocessedCheck` and contains a markdown link; the entry then carries the
link title and URL and the concatenation of the pair as `full_section`. -/
def goodEntry (hb : List Char × List Char) : Option SectionInfo :=
  if unprocessedCheck hb.2 then
    (linkSearch (pyStrip hb.2)).map (fun tu => ⟨hb.1, tu.1, tu.2, hb.1 ++ hb.2⟩)
  else none

/-! Configuration loading, `ConfigLoader._load_config` (lines 29 to 48).
The YAML dictionaries are modelled per recognized key; an `Option` field value
of `none` means the key is absent from the dictionary. -/

structure PathsTbl where
  quick_capture : Option (List Char)
  transcribe_script : Option (List Char)
  output_dir : Option (List Char)
  deriving DecidableEq, Repr

structure ApiTbl where
  ollama_endpoint : Option (List Char)
  model : Option (List Char)
  deriving DecidableEq, Repr

/-- Parsed contents of the YAML config file, restricted to the recognized
top-level keys; a `none` field means the top-level key is absent. -/
structure LoadedCfg where
  paths : Option PathsTbl
  api : Option ApiTbl
  deriving DecidableEq, Repr

/-- Resolved configuration after merging. -/
structure ResolvedCfg where
  paths : PathsTbl
  api : ApiTbl
  deriving DecidableEq, Repr

def defaultPaths : PathsTbl :=
  ⟨some "quick_capture/quick_capture.md".data, some "transcribe-anything".data,
    some "transcription_output".data⟩

def defaultApi : ApiTbl :=
  ⟨some "http://localhost:11434".data, some "deepseek-r1:8b".data⟩

/-- Embedding of `_load_config`: argument `none` is the `FileNotFoundError`
case (defaults returned unchanged); argument `some lc` is a successfully
parsed file, merged with `{**default_config, **loaded_config}`, a merge on the
top-level keys only: a top-level key present in the file replaces the whole
default value of that key. -/
def load_config (file : Option LoadedCfg) : ResolvedCfg :=
  match file with
  | none => ⟨defaultPaths, defaultApi⟩
  | some lc => ⟨lc.paths.getD defaultPaths, lc.api.getD defaultApi⟩

/-! URL classification (lines 78 to 81 and 211 to 220). -/

/-- Valid scheme characters of `urllib.parse` (ASCII letters, digits, and
`+`, `-`, `.`). -/
def schemeChar (c : Char) : Bool :=
  (c ≥ 'a' && c ≤ 'z') || (c ≥ 'A' && c ≤ 'Z') || (c ≥ '0' && c ≤ '9') ||
    c == '+' || c == '-' || c == '.'

/-- Drop a leading `scheme:` when present, as `urlsplit` does: the text before
the first colon must be nonempty, start with an ASCII letter and consist of
scheme characters. -/
def dropScheme (u : List Char) : List Char :=
  match u.findIdx? (fun c => c == ':') with
  | some i =>
    let sch := u.take i
    if decide (0 < i) && sch.all schemeChar &&
        (match sch.head? with
         | some c => (c ≥ 'a' && c ≤ 'z') || (c ≥ 'A' && c ≤ 'Z')
         | none => false) then
      u.drop (i + 1)
    else u
  | none => u

/-- Embedding of `urlparse(url).netloc`: after the scheme, a `//` introduces
the network location, which extends to the first `/`, `?` or `#`. -/
def netloc (u : List Char) : List Char :=
  if "//".data.isPrefixOf (dropScheme u) then
    ((dropScheme u).drop 2).takeWhile (fun c => c != '/' && c != '?' && c != '#')
  else []

/-- Python `str.lower()` on the ASCII range. -/
def pyLower (s : List Char) : List Char := s.map Char.toLower

/-- Embedding of `is_social_media_url` (lines 78 to 81): the lowered parsed
host contains `instagram.com` or `youtube.com`. -/
def is_social_media_url (url : List Char) : Bool :=
  containsSub "instagram.com".data (pyLower (netloc url)) ||
    containsSub "youtube.com".data (pyLower (netloc url))

/-- Summarization strategies: `process_instagram` / `process_youtube` (the
transcript backend; `process_youtube` just calls `process_instagram`) and
`summarize_webpage` (the web-text backend). -/
inductive Backend where
  | transcript
  | webtext
  deriving DecidableEq, Repr

/-- Routing structure of `process_section` (lines 211 to 220): the social
check picks the transcript backend through the inner `instagram.com` /
`youtube.com` tests on the lowered URL; every other path falls through to
`summarize_webpage`. -/
def process_section_backend (url : List Char) : Backend :=
  if is_social_media_url url then
    if containsSub "instagram.com".data (pyLower url) then Backend.transcript
    else if containsSub "youtube.com".data (pyLower url) then Backend.transcript
    else Backend.webtext
  else Backend.webtext

/-! Inference requests (lines 150 to 157 and 193 to 200). -/

/-- POST request sent to the generation endpoint. -/
structure OllamaRequest where
  url : List Char
  model : List Char
  prompt : List Char
  stream : Bool
  deriving DecidableEq, Repr

/-- Request built by `process_instagram` (lines 150 to 157): endpoint and
model are string literals in the source, not the configured values. -/
def instagramOllamaRequest (prompt : List Char) : OllamaRequest :=
  ⟨"http://localhost:11434/api/generate".data, "deepseek-r1:8b".data, prompt, false⟩

/-- Request built by `summarize_webpage` (lines 193 to 200); identical
literals. -/
def webpageOllamaRequest (prompt : List Char) : OllamaRequest :=
  ⟨"http://localhost:11434/api/generate".data, "deepseek-r1:8b".data, prompt, false⟩

/-! Transcript backend, `process_instagram` (lines 122 to 167), with its
subprocess, filesystem and HTTP effects modelled as an environment record. -/

/-- Effects observed by one `process_instagram` call: `runErr` is the message
of an exception raised by `subprocess.run(..., check=True)` (`none` when the
tool exits successfully); `outTxt` is the content of
`transcription_output/out.txt` when that file exists; `status` and `resp` are
the HTTP status code and the `response` field returned by the generation
endpoint. -/
structure TranscriptEnv where
  runErr : Option (List Char)
  outTxt : Option (List Char)
  status : Nat
  resp : List Char

/-- Prompt template of lines 144 to 148 applied to the transcript text. -/
def instagramPrompt (transcript : List Char) : List Char :=
  "You are creating a zettelkasten note for my obsidian vault. Put any thinking process in <think></think> tags.\n            Please provide a concise summary of the following webpage content along with relevant hashtags in snake_case format i.e. #easy_recipe #cooking_tips. \n            Focus on the main points and key takeaways, respond only with the summary and hashtags:\n\n            ".data ++ transcript

/-- Embedding of `process_instagram`: every failure is caught at line 165 and
converted into the `Error processing Instagram content:` string; the missing
output file raises `Transcription output not found at <path>` at line 139. -/
def process_instagram (env : TranscriptEnv) (_url : List Char) : List Char :=
  match env.runErr with
  | some m => "Error processing Instagram content: ".data ++ m
  | none =>
    match env.outTxt with
    | none =>
      "Error processing Instagram content: Transcription output not found at transcription_output/out.txt".data
    | some _transcript =>
      if env.status == 200 then clean_response env.resp
      else
        "Error processing Instagram content: Error getting summary from Ollama: ".data
          ++ (Nat.repr env.status).data

/-! Helper lemmas. -/

theorem containsSub_iff (n : List Char) : ∀ h, containsSub n h = true ↔ n <:+: h := by
  intro h
  induction h with
  | nil =>
    simp only [containsSub, List.isEmpty_iff]
    constructor
    · exact fun e => e ▸ List.infix_rfl
    · rintro ⟨s, t, hst⟩
      rcases List.append_eq_nil.mp hst with ⟨hsn, htn⟩
      exact (List.append_eq_nil.mp hsn).2
  | cons c t ih =>
    simp only [containsSub, Bool.or_eq_true, List.infix_cons_iff, ih,
      List.isPrefixOf_iff_prefix]

theorem extractLoop_eq_findSome :
    ∀ l, extractLoop l = (pairsOf l).findSome? goodEntry
  | [] => rfl
  | [_] => rfl
  | h :: b :: rest => by
    have ih := extractLoop_eq_findSome rest
    simp only [extractLoop, pairsOf, List.findSome?_cons]
    by_cases hc : unprocessedCheck b
    · simp only [hc, if_true, goodEntry]
      cases hl : linkSearch (pyStrip b) with
      | none => simpa [hl] using ih
      | some tu => simp [hl]
    · simpa [goodEntry, hc] using ih

theorem dropScheme_isSuffix (u : List Char) : dropScheme u <:+ u := by
  unfold dropScheme
  cases h : u.findIdx? (fun c => c == ':') with
  | none => exact List.suffix_rfl
  | some i =>
    simp only []
    split
    · exact List.drop_suffix _ _
    · exact List.suffix_rfl

theorem netloc_within_url (u : List Char) : netloc u <:+: u := by
  unfold netloc
  split
  · have h1 := List.takeWhile_prefix (l := (dropScheme u).drop 2)
      (fun c => c != '/' && c != '?' && c != '#')
    have h2 := List.drop_suffix 2 (dropScheme u)
    have h3 := dropScheme_isSuffix u
    exact ( List.IsPrefix.isInfix h1).trans
      (( List.IsSuffix.isInfix h2).trans ( List.IsSuffix.isInfix h3))
  · exact List.nil_infix

theorem low_netloc_transfer (f u : List Char)
    (h : containsSub f (pyLower (netloc u)) = true) :
    containsSub f (pyLower u) = true := by
  rw [containsSub_iff] at h ⊢
  exact h.trans ((netloc_within_url u).map Char.toLower)

theorem pyReplaceGo_head_match (fuel : Nat) (old rest new : List Char)
    (hne : old ≠ []) :
    pyReplaceGo (fuel + 1) (old ++ rest) old new
      = new ++ pyReplaceGo fuel rest old new := by
  have hpre : old.isPrefixOf (old ++ rest) = true :=
    List.isPrefixOf_iff_prefix.mpr ⟨rest, rfl⟩
  have hemp : old.isEmpty = false := by
    cases old with
    | nil => exact absurd rfl hne
    | cons c t => rfl
  simp [pyReplaceGo, hpre, hemp, List.drop_left]

theorem pyReplaceGo_nil (fuel : Nat) (old new : List Char) :
    pyReplaceGo fuel [] old new = [] := by
  cases fuel with
  | zero => rfl
  | succ f =>
    cases hemp : old.isEmpty
    · have : old.isPrefixOf ([] : List Char) = false := by
        cases old with
        | nil => simp [List.isEmpty] at hemp
        | cons c t => rfl
      simp [pyReplaceGo, this]
    · simp [pyReplaceGo, hemp]

theorem intercalate_single (sep a : List Char) : List.intercalate sep [a] = a := by
  simp [List.intercalate]

theorem intercalate_cons (sep a : List Char) (l : List (List Char)) (h : l ≠ []) :
    List.intercalate sep (a :: l) = a ++ sep ++ List.intercalate sep l := by
  cases l with
  | nil => exact absurd rfl h
  | cons b t =>
    simp [List.intercalate, List.intersperse, List.append_assoc]

theorem containsSub_nil_of_ne {old : List Char} (hne : old ≠ []) :
    containsSub old [] = false := by
  show old.isEmpty = false
  cases old with
  | nil => exact absurd rfl hne
  | cons a b => rfl

theorem pyReplaceGo_parts :
    ∀ (fuel : Nat) (s old new : List Char), old ≠ [] → s.length < fuel →
      ∃ parts : List (List Char), parts ≠ [] ∧
        s = List.intercalate old parts ∧
        (∀ part ∈ parts, containsSub old part = false) ∧
        pyReplaceGo fuel s old new = List.intercalate new parts := by
  intro fuel
  induction fuel with
  | zero => intro s old new _ hlen; omega
  | succ f ih =>
    intro s old new hne hlen
    by_cases hpre : (old.isPrefixOf s) = true
    · obtain ⟨r, hr⟩ := List.isPrefixOf_iff_prefix.mp hpre
      have hrlen : r.length < f := by
        have h1 : 1 ≤ old.length := List.length_pos.mpr hne
        have h2 : s.length = old.length + r.length := by rw [← hr]; simp
        omega
      obtain ⟨parts, hpne, hp1, hp2, hp3⟩ := ih r old new hne hrlen
      have hstep : pyReplaceGo (f + 1) s old new = new ++ pyReplaceGo f r old new := by
        rw [← hr]
        exact pyReplaceGo_head_match f old r new hne
      refine ⟨[] :: parts, by simp, ?_, ?_, ?_⟩
      · rw [intercalate_cons old [] parts hpne, ← hp1, ← hr]
        simp
      · intro part hmem
        rcases List.mem_cons.mp hmem with rfl | hmem2
        · exact containsSub_nil_of_ne hne
        · exact hp2 part hmem2
      · rw [hstep, hp3, intercalate_cons new [] parts hpne]
        simp
    · have hpre2 : (old.isPrefixOf s) = false := by
        cases hx : old.isPrefixOf s with
        | false => rfl
        | true => exact absurd hx hpre
      cases s with
      | nil =>
        refine ⟨[[]], by simp, by rw [intercalate_single], ?_, ?_⟩
        · intro part hmem
          simp only [List.mem_singleton] at hmem
          subst hmem
          exact containsSub_nil_of_ne hne
        · rw [pyReplaceGo_nil, intercalate_single]
      | cons c t =>
        have hstep : pyReplaceGo (f + 1) (c :: t) old new
            = c :: pyReplaceGo f t old new := by
          simp [pyReplaceGo, hpre2]
        have htlen : t.length < f := by
          simp only [List.length_cons] at hlen
          omega
        obtain ⟨parts, hpne, hp1, hp2, hp3⟩ := ih t old new hne htlen
        cases parts with
        | nil => exact absurd rfl hpne
        | cons p0 rest =>
          have hdecomp : ∃ e, c :: t = (c :: p0) ++ e := by
            cases rest with
            | nil =>
              rw [intercalate_single] at hp1
              exact ⟨[], by simp [hp1]⟩
            | cons p1 rest2 =>
              rw [intercalate_cons old p0 (p1 :: rest2) (by simp)] at hp1
              exact ⟨old ++ List.intercalate old (p1 :: rest2), by simp [hp1]⟩
          refine ⟨(c :: p0) :: rest, by simp, ?_, ?_, ?_⟩
          · cases rest with
            | nil =>
              rw [intercalate_single] at hp1
              rw [intercalate_single, hp1]
            | cons p1 rest2 =>
              rw [intercalate_cons old p0 (p1 :: rest2) (by simp)] at hp1
              rw [intercalate_cons old (c :: p0) (p1 :: rest2) (by simp), hp1]
              simp
          · intro part hmem
            rcases List.mem_cons.mp hmem with rfl | hmem2
            · show (old.isPrefixOf (c :: p0) || containsSub old p0) = false
              have hfree : containsSub old p0 = false := hp2 p0 (by simp)
              have hnp : old.isPrefixOf (c :: p0) = false := by
                cases hx : old.isPrefixOf (c :: p0) with
                | false => rfl
                | true =>
                  exfalso
                  obtain ⟨e, he⟩ := hdecomp
                  have hext : old.isPrefixOf (c :: t) = true := by
                    apply List.isPrefixOf_iff_prefix.mpr
                    rw [he]
                    exact (List.isPrefixOf_iff_prefix.mp hx).trans
                      (List.prefix_append (c :: p0) e)
                  rw [hext] at hpre2
                  simp at hpre2
              rw [hnp, hfree]
              rfl
            · exact hp2 part (List.mem_cons_of_mem _ hmem2)
          · rw [hstep, hp3]
            cases rest with
            | nil =>
              rw [intercalate_single, intercalate_single]
            | cons p1 rest2 =>
              rw [intercalate_cons new p0 (p1 :: rest2) (by simp),
                intercalate_cons new (c :: p0) (p1 :: rest2) (by simp)]
              simp

theorem drop_ws_keeps {u : List Char} (c : Char) (hh : u.head? = some c)
    (hc : pyWS c = false) : ∀ {s : List Char}, u <:+: s → u <:+: s.dropWhile pyWS := by
  intro s h
  induction s with
  | nil =>
    obtain ⟨p, q, hpq⟩ := h
    rcases List.append_eq_nil.mp hpq with ⟨hpn, hqn⟩
    rcases List.append_eq_nil.mp hpn with ⟨-, hun⟩
    subst hun
    simp at hh
  | cons a t ih =>
    by_cases ha : pyWS a = true
    · rcases List.infix_cons_iff.mp h with hp | hi
      · obtain ⟨r, hr⟩ := hp
        cases u with
        | nil => simp at hh
        | cons u0 us =>
          simp only [List.head?_cons, Option.some_inj] at hh
          simp only [List.cons_append, List.cons.injEq] at hr
          rw [hh] at hr
          rw [← hr.1] at ha
          simp [ha] at hc
      · simpa [List.dropWhile_cons, ha] using ih hi
    · have ha2 : pyWS a = false := by simpa using ha
      simpa [List.dropWhile_cons, ha2] using h

theorem strip_keeps_solid {u : List Char} (c d : Char) (hh : u.head? = some c)
    (hc : pyWS c = false) (hg : u.getLast? = some d) (hd : pyWS d = false)
    {s : List Char} (h : u <:+: s) : u <:+: pyStrip s := by
  have h1 : u <:+: s.dropWhile pyWS := drop_ws_keeps c hh hc h
  have h2 : u.reverse <:+: (s.dropWhile pyWS).reverse := by
    rw [ List.reverse_infix]
    exact h1
  have hh2 : u.reverse.head? = some d := by
    rw [ List.head?_reverse]
    exact hg
  have h3 : u.reverse <:+: ((s.dropWhile pyWS).reverse).dropWhile pyWS :=
    drop_ws_keeps d hh2 hd h2
  have h4 : u.reverse <:+: (pyStrip s).reverse := by
    unfold pyStrip
    rw [List.reverse_reverse]
    exact h3
  rw [ List.reverse_infix] at h4
  exact h4

theorem newSection_decomp (info : SectionInfo) (summary : List Char) :
    newSection info summary
      = (info.header ++ "[".data ++ info.title ++ "](".data ++ info.url)
        ++ (')' :: ("\n\n".data ++ summary ++ "\n\n-".data)) ++ "--\n".data := by
  unfold newSection
  simp [List.append_assoc]

theorem extractLoop_sound :
    ∀ (l : List (List Char)) (e : SectionInfo), extractLoop l = some e →
      ∃ h b, (h, b) ∈ pairsOf l ∧ e.header = h ∧ e.full_section = h ++ b ∧
        unprocessedCheck b = true ∧ linkSearch (pyStrip b) = some (e.title, e.url)
  | [], e => by simp [extractLoop]
  | [x], e => by simp [extractLoop]
  | h :: b :: rest, e => by
    intro he
    simp only [extractLoop] at he
    by_cases hc : unprocessedCheck b = true
    · rw [if_pos hc] at he
      cases hl : linkSearch (pyStrip b) with
      | some tu =>
        rw [hl] at he
        obtain rfl : (⟨h, tu.1, tu.2, h ++ b⟩ : SectionInfo) = e := by
          cases tu
          exact Option.some_inj.mp he
        exact ⟨h, b, by simp [pairsOf], rfl, rfl, hc, by simpa using hl⟩
      | none =>
        rw [hl] at he
        obtain ⟨h', b', hm, h1, h2, h3, h4⟩ := extractLoop_sound rest e he
        exact ⟨h', b', by simp [pairsOf, hm], h1, h2, h3, h4⟩
    · rw [if_neg hc] at he
      obtain ⟨h', b', hm, h1, h2, h3, h4⟩ := extractLoop_sound rest e he
      exact ⟨h', b', by simp [pairsOf, hm], h1, h2, h3, h4⟩

theorem findNL_spec :
    ∀ (l u v : List Char), findNL l = some (u, v) →
      l = u ++ '\n' :: v ∧ lookB v = true := by
  intro l
  induction l with
  | nil => intro u v h; simp [findNL] at h
  | cons c t ih =>
    intro u v h
    simp only [findNL] at h
    by_cases hc : (c == '\n' && lookB t) = true
    · rw [if_pos hc] at h
      rcases Prod.ext_iff.mp (Option.some_inj.mp h) with ⟨h1, h2⟩
      subst h1
      subst h2
      rcases (Bool.and_eq_true _ _).mp hc with ⟨hc1, hc2⟩
      have hc3 : c = '\n' := by simpa using hc1
      subst hc3
      exact ⟨rfl, hc2⟩
    · rw [if_neg hc] at h
      cases hf : findNL t with
      | none => rw [hf] at h; simp at h
      | some uv =>
        rw [hf] at h
        simp only [Option.map_some'] at h
        rcases Prod.ext_iff.mp (Option.some_inj.mp h) with ⟨h1, h2⟩
        obtain ⟨hu, hlook⟩ := ih uv.1 uv.2 (by rw [hf])
        subst h1
        subst h2
        exact ⟨by rw [hu]; simp, hlook⟩

theorem sectionSplitHead_spec (s m rest : List Char)
    (h : sectionSplitHead s = some (m, rest)) :
    s = m ++ rest ∧ m ≠ [] ∧ m.getLast? = some '\n' ∧ lookB rest = true := by
  unfold sectionSplitHead at h
  split at h
  case isFalse => simp at h
  case isTrue hp =>
    split at h
    case isTrue => simp at h
    case isFalse hw =>
      obtain ⟨t0, ht0⟩ := List.isPrefixOf_iff_prefix.mp hp
      have hdrop : s.drop 6 = t0 := by
        rw [← ht0]
        have h6 : (6 : Nat) = ("######".data).length := by decide
        rw [h6, List.drop_left]
      have hs : s = "######".data ++ s.drop 6 := by
        rw [hdrop]
        exact ht0.symm
      have htd : s.drop 6
          = (s.drop 6).takeWhile pyWS ++ (s.drop 6).dropWhile pyWS :=
        (List.takeWhile_append_dropWhile pyWS (s.drop 6)).symm
      split at h
      next u v hf =>
        obtain ⟨hz, hlook⟩ := findNL_spec _ u v hf
        have h12 := Option.some_inj.mp h
        rw [Prod.mk.injEq] at h12
        obtain ⟨hm, hr⟩ := h12
        subst hm
        subst hr
        refine ⟨?_, ?_, ?_, hlook⟩
        · conv_lhs => rw [hs, htd, hz]
          simp [List.append_assoc]
        · simp
        · rw [show "######".data ++ (s.drop 6).takeWhile pyWS ++ u ++ ['\n']
              = ("######".data ++ (s.drop 6).takeWhile pyWS ++ u) ++ ['\n'] by
            simp [List.append_assoc]]
          exact List.getLast?_concat _
      next hf =>
        split at h
        case isFalse => simp at h
        case isTrue hcond =>
          rcases (Bool.and_eq_true _ _).mp hcond with ⟨hcond1, hlook⟩
          rcases (Bool.and_eq_true _ _).mp hcond1 with ⟨hlen, hlast⟩
          have hlen2 : 2 ≤ ((s.drop 6).takeWhile pyWS).length :=
            of_decide_eq_true hlen
          have hlast2 : ((s.drop 6).takeWhile pyWS).getLast? = some '\n' := by
            simpa using hlast
          have h12 := Option.some_inj.mp h
          rw [Prod.mk.injEq] at h12
          obtain ⟨hm, hr⟩ := h12
          subst hm
          subst hr
          refine ⟨?_, ?_, ?_, hlook⟩
          · conv_lhs => rw [hs, htd]
            simp [List.append_assoc]
          · simp
          · rw [List.getLast?_append_of_ne_nil]
            · exact hlast2
            · intro hnil
              rw [hnil] at hlen2
              simp at hlen2

theorem pySplitGo_zero (gapRev s : List Char) :
    pySplitGo 0 gapRev s = [gapRev.reverse ++ s] := rfl

theorem pySplitGo_succ (f : Nat) (gapRev s : List Char) :
    pySplitGo (f + 1) gapRev s
      = match sectionSplitHead s with
        | some mr => gapRev.reverse :: mr.1 :: pySplitGo f [] mr.2
        | none =>
          match s with
          | [] => [gapRev.reverse]
          | c :: t => pySplitGo f (c :: gapRev) t := rfl

theorem pySplitGo_pairs :
    ∀ (fuel : Nat) (gapRev s h b : List Char),
      (h, b) ∈ pairsOf (pySplitGo fuel gapRev s) →
      ∃ p q, gapRev.reverse ++ s = p ++ h ++ b ++ q ∧ b ≠ [] ∧
        b.getLast? = some '\n' ∧ lookB q = true := by
  intro fuel
  induction fuel with
  | zero =>
    intro gapRev s h b hm
    rw [pySplitGo_zero] at hm
    simp [pairsOf] at hm
  | succ f ih =>
    intro gapRev s h b hm
    rw [pySplitGo_succ] at hm
    cases hsh : sectionSplitHead s with
    | some mr =>
      obtain ⟨m, rest⟩ := mr
      rw [hsh] at hm
      simp only [pairsOf, List.mem_cons] at hm
      obtain ⟨hsm, hmne, hmlast, hmlook⟩ := sectionSplitHead_spec s m rest hsh
      rcases hm with heq | hmem
      · have h1 : h = gapRev.reverse := congrArg Prod.fst heq
        have h2 : b = m := congrArg Prod.snd heq
        subst h1
        subst h2
        refine ⟨[], rest, ?_, hmne, hmlast, hmlook⟩
        rw [hsm]
        simp [List.append_assoc]
      · obtain ⟨p, q, hq1, hq2, hq3, hq4⟩ := ih [] rest h b hmem
        simp only [List.reverse_nil, List.nil_append] at hq1
        refine ⟨gapRev.reverse ++ m ++ p, q, ?_, hq2, hq3, hq4⟩
        rw [hsm, hq1]
        simp [List.append_assoc]
    | none =>
      rw [hsh] at hm
      cases s with
      | nil => simp [pairsOf] at hm
      | cons c t =>
        obtain ⟨p, q, hq1, hq2, hq3, hq4⟩ := ih (c :: gapRev) t h b hm
        refine ⟨p, q, ?_, hq2, hq3, hq4⟩
        rw [← hq1]
        simp

theorem subBlankGo_cons (f : Nat) (c : Char) (t : List Char) :
    subBlankGo (f + 1) (c :: t)
      = if c == '\n' && (t.takeWhile pyWS).any (fun d => d == '\n') then
          '\n' :: '\n' :: subBlankGo f
            (((t.takeWhile pyWS).reverse.takeWhile (fun d => d != '\n')).reverse
              ++ t.dropWhile pyWS)
        else c :: subBlankGo f t := rfl

theorem hasTriple_cons (c : Char) (t : List Char) :
    hasTriple (c :: t) = (tripleAt (c :: t) || hasTriple t) := rfl

theorem nlHead_cons (a : Char) (l : List Char) : nlHead (a :: l) = (a == '\n') := by
  simp [nlHead]

theorem nlHead_true {l : List Char} (h : nlHead l = true) : ∃ t, l = '\n' :: t := by
  cases l with
  | nil => simp [nlHead] at h
  | cons a t =>
    have ha : a = '\n' := by simpa [nlHead] using h
    exact ⟨t, by rw [ha]⟩

theorem dw_append {p : Char → Bool} :
    ∀ (l b : List Char) (c : Char) (t : List Char),
      l.dropWhile p = c :: t → (l ++ b).dropWhile p = c :: (t ++ b) := by
  intro l
  induction l with
  | nil => intro b c t h; simp at h
  | cons a l2 ih =>
    intro b c t h
    by_cases ha : p a = true
    · simp only [List.dropWhile_cons, ha, if_true] at h
      rw [List.cons_append]
      simp only [List.dropWhile_cons, ha, if_true]
      exact ih b c t h
    · have ha2 : p a = false := by simpa using ha
      simp only [List.dropWhile_cons, ha2] at h
      rw [List.cons_append]
      simp only [List.dropWhile_cons, ha2]
      injection h with h1 h2
      subst h1
      subst h2
      simp

theorem tripleAt_append {l : List Char} (b : List Char) (h : tripleAt l = true) :
    tripleAt (l ++ b) = true := by
  unfold tripleAt at h ⊢
  rcases (Bool.and_eq_true _ _).mp h with ⟨h12, h3⟩
  rcases (Bool.and_eq_true _ _).mp h12 with ⟨h1, h2⟩
  obtain ⟨t, rfl⟩ := nlHead_true h1
  simp only [List.cons_append, List.tail_cons] at h2 h3 ⊢
  obtain ⟨t2, hd2⟩ := nlHead_true h2
  rw [hd2] at h3
  simp only [List.tail_cons] at h3
  obtain ⟨t3, hd3⟩ := nlHead_true h3
  have hd2b : (t ++ b).dropWhile softWS = '\n' :: (t2 ++ b) := dw_append t b '\n' t2 hd2
  have hd3b : (t2 ++ b).dropWhile softWS = '\n' :: (t3 ++ b) := dw_append t2 b '\n' t3 hd3
  rw [hd2b]
  simp only [List.tail_cons]
  rw [hd3b]
  simp [nlHead]

theorem hasTriple_app_left :
    ∀ (a b : List Char), hasTriple (a ++ b) = false → hasTriple a = false := by
  intro a
  induction a with
  | nil => intro b _; rfl
  | cons c a2 ih =>
    intro b h
    rw [List.cons_append, hasTriple_cons] at h
    have h1 : tripleAt (c :: (a2 ++ b)) = false := by
      cases hx : tripleAt (c :: (a2 ++ b)) with
      | false => rfl
      | true => rw [hx] at h; simp at h
    have h2 : hasTriple (a2 ++ b) = false := by
      cases hx : hasTriple (a2 ++ b) with
      | false => rfl
      | true => rw [hx] at h; simp at h
    rw [hasTriple_cons]
    have ht : tripleAt (c :: a2) = false := by
      cases hx : tripleAt (c :: a2) with
      | false => rfl
      | true =>
        exfalso
        have := tripleAt_append b hx
        rw [List.cons_append] at this
        rw [this] at h1
        simp at h1
    rw [ht, ih b h2]
    rfl

theorem hasTriple_app_right :
    ∀ (a b : List Char), hasTriple (a ++ b) = false → hasTriple b = false := by
  intro a
  induction a with
  | nil => intro b h; simpa using h
  | cons c a2 ih =>
    intro b h
    rw [List.cons_append, hasTriple_cons] at h
    have h2 : hasTriple (a2 ++ b) = false := by
      cases hx : hasTriple (a2 ++ b) with
      | false => rfl
      | true => rw [hx] at h; simp at h
    exact ih b h2

theorem hasTriple_of_inner {u s : List Char} (hinf : u <:+: s)
    (h : hasTriple s = false) : hasTriple u = false := by
  obtain ⟨p, q, hpq⟩ := hinf
  rw [← hpq] at h
  rw [List.append_assoc] at h
  exact hasTriple_app_left u q (hasTriple_app_right p (u ++ q) h)

theorem pyStrip_pref (s : List Char) : pyStrip s <+: s.dropWhile pyWS := by
  have h2 : ((s.dropWhile pyWS).reverse.dropWhile pyWS) <:+ (s.dropWhile pyWS).reverse :=
    List.dropWhile_suffix pyWS
  have hiff := @List.reverse_suffix Char
    (((s.dropWhile pyWS).reverse.dropWhile pyWS).reverse) (s.dropWhile pyWS)
  apply hiff.mp
  rw [List.reverse_reverse]
  exact h2

theorem pyStrip_within (s : List Char) : pyStrip s <:+: s :=
  ( List.IsPrefix.isInfix (pyStrip_pref s)).trans
    ( List.IsSuffix.isInfix (List.dropWhile_suffix pyWS))

theorem dropWhile_head_not {p : Char → Bool} :
    ∀ (l : List Char) (c : Char), (l.dropWhile p).head? = some c → p c = false := by
  intro l
  induction l with
  | nil => intro c h; simp at h
  | cons a t ih =>
    intro c h
    by_cases ha : p a = true
    · simp only [List.dropWhile_cons, ha, if_true] at h
      exact ih c h
    · have ha2 : p a = false := by simpa using ha
      simp only [List.dropWhile_cons, ha2] at h
      simp only [Bool.false_eq_true, if_false, List.head?_cons, Option.some_inj] at h
      rw [← h]
      exact ha2

theorem head?_of_pref {a b : List Char} (h : a <+: b) {c : Char}
    (hh : a.head? = some c) : b.head? = some c := by
  obtain ⟨r, hr⟩ := h
  rw [← hr]
  cases a with
  | nil => simp at hh
  | cons x t => simpa using hh

theorem pyStrip_head_solid (s : List Char) : headNotWS (pyStrip s) = true := by
  unfold headNotWS
  cases hh : (pyStrip s).head? with
  | none => rfl
  | some c =>
    have hb : (s.dropWhile pyWS).head? = some c := head?_of_pref (pyStrip_pref s) hh
    have hc := dropWhile_head_not s c hb
    simp [hc]

theorem pyStrip_last_solid (s : List Char) : lastNotWS (pyStrip s) = true := by
  unfold lastNotWS
  cases hh : (pyStrip s).getLast? with
  | none => rfl
  | some c =>
    have hrev : ((pyStrip s).reverse).head? = some c := by
      rw [ List.head?_reverse]
      exact hh
    have hX : (pyStrip s).reverse = (s.dropWhile pyWS).reverse.dropWhile pyWS := by
      unfold pyStrip
      rw [List.reverse_reverse]
    rw [hX] at hrev
    have hc := dropWhile_head_not _ c hrev
    simp [hc]

theorem take_of_drop_nil (p : Char → Bool) (l : List Char) :
    (l.dropWhile p).takeWhile p = [] := by
  induction l with
  | nil => rfl
  | cons c t ih =>
    by_cases hc : p c = true
    · simp [List.dropWhile_cons, hc, ih]
    · simp [List.dropWhile_cons, hc, List.takeWhile_cons, Bool.of_not_eq_true hc]

theorem drop_soft_app :
    ∀ (w z : List Char), (∀ x ∈ w, softWS x = true) →
      (w ++ z).dropWhile softWS = z.dropWhile softWS := by
  intro w
  induction w with
  | nil => intro z _; rfl
  | cons a w2 ih =>
    intro z hall
    have ha : softWS a = true := hall a (by simp)
    rw [List.cons_append]
    simp only [List.dropWhile_cons, ha, if_true]
    exact ih z (fun x hx => hall x (by simp [hx]))

theorem take_pyws_app :
    ∀ (w z : List Char), (∀ x ∈ w, pyWS x = true) →
      (w ++ z).takeWhile pyWS = w ++ z.takeWhile pyWS := by
  intro w
  induction w with
  | nil => intro z _; rfl
  | cons a w2 ih =>
    intro z hall
    have ha : pyWS a = true := hall a (by simp)
    rw [List.cons_append]
    simp only [List.takeWhile_cons, ha, if_true]
    rw [ih z (fun x hx => hall x (by simp [hx]))]
    rfl

theorem w2_mem_facts (t : List Char) :
    ∀ x ∈ ((t.takeWhile pyWS).reverse.takeWhile (fun d => d != '\n')).reverse,
      pyWS x = true ∧ (x == '\n') = false := by
  intro x hx
  rw [List.mem_reverse] at hx
  have hpred := List.mem_takeWhile_imp hx
  have hmem : x ∈ (t.takeWhile pyWS).reverse :=
    List.Sublist.subset ( List.IsPrefix.sublist ( List.takeWhile_prefix _)) hx
  rw [List.mem_reverse] at hmem
  have hws : pyWS x = true := List.mem_takeWhile_imp hmem
  exact ⟨hws, by simpa using hpred⟩

theorem w2_no_nl (t : List Char) :
    (((t.takeWhile pyWS).reverse.takeWhile (fun d => d != '\n')).reverse.any
      (fun d => d == '\n')) = false := by
  cases hx : (((t.takeWhile pyWS).reverse.takeWhile (fun d => d != '\n')).reverse.any
      (fun d => d == '\n')) with
  | false => rfl
  | true =>
    exfalso
    obtain ⟨x, hmem, hxnl⟩ := List.any_eq_true.mp hx
    exact absurd hxnl (by simp [(w2_mem_facts t x hmem).2])

theorem subBlankGo_safe :
    ∀ (fuel : Nat) (s : List Char),
      hasTriple (subBlankGo fuel s) = false ∧
        (((s.takeWhile pyWS).any (fun d => d == '\n')) = false →
          nlAfterSoft (subBlankGo fuel s) = false) := by
  intro fuel
  induction fuel with
  | zero => intro s; exact ⟨rfl, fun _ => rfl⟩
  | succ f ih =>
    intro s
    cases s with
    | nil => exact ⟨rfl, fun _ => rfl⟩
    | cons c t =>
      by_cases hm : (c == '\n' && (t.takeWhile pyWS).any (fun d => d == '\n')) = true
      · have hout : subBlankGo (f + 1) (c :: t)
            = '\n' :: '\n' :: subBlankGo f
                (((t.takeWhile pyWS).reverse.takeWhile (fun d => d != '\n')).reverse
                  ++ t.dropWhile pyWS) := by
          rw [subBlankGo_cons, if_pos hm]
        rcases (Bool.and_eq_true _ _).mp hm with ⟨hc, _⟩
        have hcond2 : ((((t.takeWhile pyWS).reverse.takeWhile
              (fun d => d != '\n')).reverse ++ t.dropWhile pyWS).takeWhile pyWS).any
            (fun d => d == '\n') = false := by
          rw [take_pyws_app _ _ (fun x hx => (w2_mem_facts t x hx).1)]
          rw [take_of_drop_nil pyWS t]
          rw [List.append_nil]
          exact w2_no_nl t
        obtain ⟨ihz1, ihz2⟩ := ih
          (((t.takeWhile pyWS).reverse.takeWhile (fun d => d != '\n')).reverse
            ++ t.dropWhile pyWS)
        have hnl : nlAfterSoft (subBlankGo f
            (((t.takeWhile pyWS).reverse.takeWhile (fun d => d != '\n')).reverse
              ++ t.dropWhile pyWS)) = false := ihz2 hcond2
        constructor
        · rw [hout, hasTriple_cons, hasTriple_cons]
          have t1 : tripleAt ('\n' :: subBlankGo f
              (((t.takeWhile pyWS).reverse.takeWhile (fun d => d != '\n')).reverse
                ++ t.dropWhile pyWS)) = false := by
            unfold tripleAt
            simp only [List.tail_cons]
            rw [show nlHead ((subBlankGo f
                (((t.takeWhile pyWS).reverse.takeWhile (fun d => d != '\n')).reverse
                  ++ t.dropWhile pyWS)).dropWhile softWS)
              = nlAfterSoft (subBlankGo f
                (((t.takeWhile pyWS).reverse.takeWhile (fun d => d != '\n')).reverse
                  ++ t.dropWhile pyWS)) from rfl, hnl]
            simp
          have hsn : softWS '\n' = false := by decide
          have t2 : tripleAt ('\n' :: '\n' :: subBlankGo f
              (((t.takeWhile pyWS).reverse.takeWhile (fun d => d != '\n')).reverse
                ++ t.dropWhile pyWS)) = false := by
            unfold tripleAt
            simp only [List.tail_cons]
            rw [show ('\n' :: subBlankGo f
                (((t.takeWhile pyWS).reverse.takeWhile (fun d => d != '\n')).reverse
                  ++ t.dropWhile pyWS)).dropWhile softWS
              = '\n' :: subBlankGo f
                (((t.takeWhile pyWS).reverse.takeWhile (fun d => d != '\n')).reverse
                  ++ t.dropWhile pyWS) by simp [List.dropWhile_cons, hsn]]
            simp only [List.tail_cons]
            rw [show nlHead ((subBlankGo f
                (((t.takeWhile pyWS).reverse.takeWhile (fun d => d != '\n')).reverse
                  ++ t.dropWhile pyWS)).dropWhile softWS)
              = nlAfterSoft (subBlankGo f
                (((t.takeWhile pyWS).reverse.takeWhile (fun d => d != '\n')).reverse
                  ++ t.dropWhile pyWS)) from rfl, hnl]
            simp
          rw [t1, t2, ihz1]
          rfl
        · intro hcond
          exfalso
          have hc2 : c = '\n' := by simpa using hc
          subst hc2
          have hwn : pyWS '\n' = true := by decide
          rw [List.takeWhile_cons] at hcond
          simp only [hwn, if_true, List.any_cons] at hcond
          simp at hcond
      · have hout : subBlankGo (f + 1) (c :: t) = c :: subBlankGo f t := by
          rw [subBlankGo_cons, if_neg hm]
        obtain ⟨iht1, iht2⟩ := ih t
        constructor
        · rw [hout, hasTriple_cons]
          have htrip : tripleAt (c :: subBlankGo f t) = false := by
            by_cases hcn : (c == '\n') = true
            · have hanyf : ((t.takeWhile pyWS).any (fun d => d == '\n')) = false := by
                cases hany : ((t.takeWhile pyWS).any (fun d => d == '\n')) with
                | false => rfl
                | true => exact absurd (by rw [hcn, hany]; rfl) hm
              have hnl2 : nlAfterSoft (subBlankGo f t) = false := iht2 hanyf
              unfold tripleAt
              simp only [List.tail_cons]
              rw [show nlHead ((subBlankGo f t).dropWhile softWS)
                = nlAfterSoft (subBlankGo f t) from rfl, hnl2]
              simp
            · have hcn2 : (c == '\n') = false := by simpa using hcn
              unfold tripleAt
              rw [nlHead_cons, hcn2]
              simp
          rw [htrip, iht1]
          rfl
        · intro hcond
          rw [hout]
          by_cases hws : pyWS c = true
          · have htk : (c :: t).takeWhile pyWS = c :: t.takeWhile pyWS := by
              simp [List.takeWhile_cons, hws]
            rw [htk, List.any_cons] at hcond
            have hcn : (c == '\n') = false := by
              cases hx : (c == '\n') with
              | false => rfl
              | true => rw [hx] at hcond; simp at hcond
            have hrest : ((t.takeWhile pyWS).any (fun d => d == '\n')) = false := by
              cases hx : ((t.takeWhile pyWS).any (fun d => d == '\n')) with
              | false => rfl
              | true => rw [hx] at hcond; simp at hcond
            have hsoft : softWS c = true := by
              simp [softWS, hws, bne, hcn]
            unfold nlAfterSoft
            rw [show (c :: subBlankGo f t).dropWhile softWS
              = (subBlankGo f t).dropWhile softWS by simp [List.dropWhile_cons, hsoft]]
            exact iht2 hrest
          · have hws2 : pyWS c = false := by simpa using hws
            have hsoft : softWS c = false := by simp [softWS, hws2]
            have hcn : (c == '\n') = false := by
              cases hx : (c == '\n') with
              | false => rfl
              | true =>
                exfalso
                have hceq : c = '\n' := by simpa using hx
                subst hceq
                rw [show pyWS '\n' = true from by decide] at hws2
                simp at hws2
            unfold nlAfterSoft
            rw [show (c :: subBlankGo f t).dropWhile softWS
              = c :: subBlankGo f t by simp [List.dropWhile_cons, hsoft]]
            rw [nlHead_cons]
            exact hcn

/-! Claim theorems, one per claim of the frozen list. -/

/-- Claim C1.  Evaluation of the code on scenario A: extraction does return
title `My Link` and url `https://example.com`, but the `header` field is the
empty string (the section regex captures heading and body as one chunk), so
rewriting with summary `Summary. #tag` yields a note that has lost the
heading line, not the note required by the claim. -/
theorem c1_rewrite_drops_heading :
    extract_unprocessed_section
        "###### 2024-01-01\n[My Link](https://example.com)\n".data
      = some ⟨[], "My Link".data, "https://example.com".data,
          "###### 2024-01-01\n[My Link](https://example.com)\n".data⟩ ∧
    update_file_with_processed_section
        "###### 2024-01-01\n[My Link](https://example.com)\n".data
        ⟨[], "My Link".data, "https://example.com".data,
          "###### 2024-01-01\n[My Link](https://example.com)\n".data⟩
        "Summary. #tag".data
      = "[My Link](https://example.com)\n\nSummary. #tag\n\n---\n".data ∧
    "[My Link](https://example.com)\n\nSummary. #tag\n\n---\n".data
      ≠ "###### 2024-01-01\n[My Link](https://example.com)\n\nSummary. #tag\n\n---\n".data := by
  refine ⟨by decide, by decide, by decide⟩

/-- Claim C2 counterexample.  The note consisting of the single heading line
`###### [a](https://x.com)` has an empty body after the heading line (there is
nothing after character 26), yet extraction returns this entry, because the
code applies the unprocessed test to the whole section chunk, heading line
included, and the heading line carries the link. -/
theorem c2_heading_link_returned :
    "###### [a](https://x.com)\n".data.drop 26 = ([] : List Char) ∧
    extract_unprocessed_section "###### [a](https://x.com)\n".data
      = some ⟨[], "a".data, "https://x.com".data,
          "###### [a](https://x.com)\n".data⟩ := by
  refine ⟨by decide, by decide⟩

/-- Claim C2 amended: for every note text, extraction returns the entry built
from the first (even, odd) pair of the split result, in document order, whose
odd element — the whole matched section with its heading line included —
after stripping has at most two newline characters, contains `http://` or
`https://`, and contains a markdown link `[title](http(s)://...)`; pairs
failing any of these conditions are skipped, and `none` is returned when no
pair passes. -/
theorem c2_amended_first_passing_chunk (content : List Char) :
    extract_unprocessed_section content = (pairsOf (pySplit content)).findSome? goodEntry :=
  extractLoop_eq_findSome _

/-- Claim C3 counterexample.  When the extracted section text occurs twice in
the note, `content.replace` rewrites both occurrences, so the second one does
not stay unchanged: the result is two copies of the replacement block, not one
replacement block followed by the untouched second section. -/
theorem c3_second_occurrence_rewritten :
    extract_unprocessed_section
        "###### A\n[x](https://e.com)\n###### A\n[x](https://e.com)\n".data
      = some ⟨[], "x".data, "https://e.com".data,
          "###### A\n[x](https://e.com)\n".data⟩ ∧
    update_file_with_processed_section
        "###### A\n[x](https://e.com)\n###### A\n[x](https://e.com)\n".data
        ⟨[], "x".data, "https://e.com".data, "###### A\n[x](https://e.com)\n".data⟩
        "S".data
      = "[x](https://e.com)\n\nS\n\n---\n[x](https://e.com)\n\nS\n\n---\n".data ∧
    update_file_with_processed_section
        "###### A\n[x](https://e.com)\n###### A\n[x](https://e.com)\n".data
        ⟨[], "x".data, "https://e.com".data, "###### A\n[x](https://e.com)\n".data⟩
        "S".data
      ≠ "[x](https://e.com)\n\nS\n\n---\n###### A\n[x](https://e.com)\n".data := by
  refine ⟨by decide, by decide, by decide⟩

/-- Claim C3 amended: for every note text, selected entry, and summary, the
note decomposes into pieces that are free of the entry `full_section`
separated by its leftmost non-overlapping occurrences, and the rewrite
replaces every one of those occurrences with the replacement block —
occurrences after the first are replaced too, not left unchanged. -/
theorem c3_amended_replaces_every_occurrence (content : List Char)
    (info : SectionInfo) (summary : List Char) (hne : info.full_section ≠ []) :
    ∃ parts : List (List Char), parts ≠ [] ∧
      content = List.intercalate info.full_section parts ∧
      (∀ part ∈ parts, containsSub info.full_section part = false) ∧
      update_file_with_processed_section content info summary
        = List.intercalate (newSection info summary) parts :=
  pyReplaceGo_parts (content.length + 1) content info.full_section
    (newSection info summary) hne (by omega)

/-- Claim C3 amended, witness instance at a concrete two-occurrence note,
entry and summary. -/
theorem c3_amended_occurrence_witness :
    ∃ parts : List (List Char), parts ≠ [] ∧
      ("###### A\n[x](https://e.com)\n###### A\n[x](https://e.com)\n".data :
          List Char)
        = List.intercalate (⟨[], "x".data, "https://e.com".data,
            "###### A\n[x](https://e.com)\n".data⟩ : SectionInfo).full_section parts ∧
      (∀ part ∈ parts,
        containsSub (⟨[], "x".data, "https://e.com".data,
          "###### A\n[x](https://e.com)\n".data⟩ : SectionInfo).full_section part
          = false) ∧
      update_file_with_processed_section
          "###### A\n[x](https://e.com)\n###### A\n[x](https://e.com)\n".data
          ⟨[], "x".data, "https://e.com".data, "###### A\n[x](https://e.com)\n".data⟩
          "S".data
        = List.intercalate
            (newSection ⟨[], "x".data, "https://e.com".data,
              "###### A\n[x](https://e.com)\n".data⟩ "S".data) parts :=
  c3_amended_replaces_every_occurrence
    "###### A\n[x](https://e.com)\n###### A\n[x](https://e.com)\n".data
    ⟨[], "x".data, "https://e.com".data, "###### A\n[x](https://e.com)\n".data⟩
    "S".data (by decide)

/-- Claim C4 counterexample.  A config file that sets only
`paths.quick_capture` replaces the whole default `paths` table, so
`transcribe_script` and `output_dir` come out absent, not at their
defaults. -/
theorem c4_nested_keys_lost :
    (load_config (some ⟨some ⟨some "x".data, none, none⟩, none⟩)).paths.quick_capture
      = some "x".data ∧
    (load_config (some ⟨some ⟨some "x".data, none, none⟩, none⟩)).paths.transcribe_script
      ≠ defaultPaths.transcribe_script ∧
    (load_config (some ⟨some ⟨some "x".data, none, none⟩, none⟩)).paths.output_dir
      ≠ defaultPaths.output_dir := by
  refine ⟨rfl, by decide, by decide⟩

/-- Claim C4 amended: the merge of line 45 acts on the two top-level keys
only; a top-level key present in the file replaces the entire corresponding
default table, and a top-level key absent from the file (or a missing file)
keeps the whole default table. -/
theorem c4_amended_top_level_merge :
    load_config none = ⟨defaultPaths, defaultApi⟩ ∧
    load_config (some ⟨none, none⟩) = ⟨defaultPaths, defaultApi⟩ ∧
    (∀ pt : PathsTbl, load_config (some ⟨some pt, none⟩) = ⟨pt, defaultApi⟩) ∧
    (∀ md : ApiTbl, load_config (some ⟨none, some md⟩) = ⟨defaultPaths, md⟩) ∧
    (∀ (pt : PathsTbl) (md : ApiTbl),
      load_config (some ⟨some pt, some md⟩) = ⟨pt, md⟩) :=
  ⟨rfl, rfl, fun _ => rfl, fun _ => rfl, fun _ _ => rfl⟩

/-- Claim C5 counterexample.  With a configuration whose
`api.ollama_endpoint` is `http://example.org:9999` and whose `api.model` is
`m`, both backends still address `http://localhost:11434/api/generate` with
model `deepseek-r1:8b`: the request literals of lines 150 to 157 and 193 to
200 ignore the loaded configuration. -/
theorem c5_requests_ignore_config :
    (load_config (some ⟨none, some ⟨some "http://example.org:9999".data,
        some "m".data⟩⟩)).api.ollama_endpoint = some "http://example.org:9999".data ∧
    (instagramOllamaRequest "p".data).url ≠ "http://example.org:9999/api/generate".data ∧
    (instagramOllamaRequest "p".data).model ≠ "m".data ∧
    (webpageOllamaRequest "p".data).url ≠ "http://example.org:9999/api/generate".data ∧
    (webpageOllamaRequest "p".data).model ≠ "m".data := by
  refine ⟨rfl, by decide, by decide, by decide, by decide⟩

/-- Claim C5 amended: whatever the configuration, both backends always send
the generation request to the literal URL
`http://localhost:11434/api/generate` with the literal model `deepseek-r1:8b`
and `stream: false` (these happen to coincide with the defaults). -/
theorem c5_amended_literal_requests :
    ∀ prompt : List Char,
      (instagramOllamaRequest prompt).url = "http://localhost:11434/api/generate".data ∧
      (instagramOllamaRequest prompt).model = "deepseek-r1:8b".data ∧
      (instagramOllamaRequest prompt).stream = false ∧
      (webpageOllamaRequest prompt).url = "http://localhost:11434/api/generate".data ∧
      (webpageOllamaRequest prompt).model = "deepseek-r1:8b".data ∧
      (webpageOllamaRequest prompt).stream = false :=
  fun _ => ⟨rfl, rfl, rfl, rfl, rfl, rfl⟩

/-- Claim C6 counterexample.  The URL `https://example.com/youtube.com`
contains `youtube.com` (case-insensitively), yet it is routed to the web-text
backend, because line 80 inspects only the parsed host, which is
`example.com`. -/
theorem c6_path_fragment_not_social :
    containsSub "youtube.com".data (pyLower "https://example.com/youtube.com".data)
      = true ∧
    process_section_backend "https://example.com/youtube.com".data = Backend.webtext := by
  refine ⟨by decide, by decide⟩

/-- Claim C6 amended: a URL is routed to the transcript backend exactly when
its parsed host (netloc), lowercased, contains `instagram.com` or
`youtube.com`; all other URLs go to the web-text backend.  Classification is
a pure total function of the URL. -/
theorem c6_amended_host_decides (url : List Char) :
    process_section_backend url = Backend.transcript
      ↔ (containsSub "instagram.com".data (pyLower (netloc url)) = true ∨
          containsSub "youtube.com".data (pyLower (netloc url)) = true) := by
  constructor
  · intro h
    by_contra hno
    push_neg at hno
    have hs : is_social_media_url url = false := by
      unfold is_social_media_url
      simp [Bool.not_eq_true] at hno
      simp [hno.1, hno.2]
    unfold process_section_backend at h
    rw [hs] at h
    simp at h
  · intro hd
    have hs : is_social_media_url url = true := by
      unfold is_social_media_url
      rcases hd with h | h <;> simp [h]
    unfold process_section_backend
    rw [hs]
    simp only [if_true]
    rcases hd with h1 | h2
    · have ht := low_netloc_transfer _ _ h1
      simp [ht]
    · by_cases hi : containsSub "instagram.com".data (pyLower url) = true
      · simp [hi]
      · have ht := low_netloc_transfer _ _ h2
        simp [hi, ht]

/-- Claim C7 counterexample.  The input `<think>` (an opening marker with no
matching closing marker) passes through the sanitizer unchanged, so the output
contains the literal marker `<think>`. -/
theorem c7_unpaired_marker_survives :
    clean_response "<think>".data = "<think>".data ∧
    containsSub "<think>".data (clean_response "<think>".data) = true := by
  refine ⟨by decide, by decide⟩

/-- Claim C7 amended: for every input string the sanitizer output contains no
run of more than one consecutive blank line — formally, no three newlines
separated only by non-newline whitespace occur in it, and after the final
trim it neither starts nor ends with whitespace, so no blank line borders the
ends either.  The marker clauses of the original claim do not hold (see the
counterexample): unpaired or re-spliced markers and trimmed `thinking:` lines
can survive in the output. -/
theorem c7_amended_blank_collapse (text : List Char) :
    hasTriple (clean_response text) = false ∧
    headNotWS (clean_response text) = true ∧
    lastNotWS (clean_response text) = true := by
  refine ⟨?_, pyStrip_head_solid _, pyStrip_last_solid _⟩
  have h1 := (subBlankGo_safe
    ((subThinkLine (subThinkBr (subThink text))).length + 1)
    (subThinkLine (subThinkBr (subThink text)))).1
  exact hasTriple_of_inner (pyStrip_within _) h1

/-- Claim C8.  First part: the block that the rewrite writes in place of an
entry (for any entry and any summary, error string or not) always contains the
span `)` newline newline summary newline newline `-` between non-whitespace
characters, so any section chunk containing that block keeps at least four
newline characters after stripping and therefore fails `unprocessedCheck`.
Second part: extraction only ever returns entries whose section chunk passes
`unprocessedCheck`.  Together: extraction never re-selects a rewritten
entry. -/
theorem c8_rewritten_block_fails_check :
    (∀ (info : SectionInfo) (summary chunk : List Char),
        newSection info summary <:+: chunk → unprocessedCheck chunk = false) ∧
    (∀ (content : List Char) (e : SectionInfo),
        extract_unprocessed_section content = some e →
          ∃ h b, e.full_section = h ++ b ∧ unprocessedCheck b = true) := by
  constructor
  · intro info summary chunk hinf
    have hmem : (')' :: ("\n\n".data ++ summary ++ "\n\n-".data))
        <:+: newSection info summary := by
      rw [newSection_decomp]
      exact ⟨info.header ++ "[".data ++ info.title ++ "](".data ++ info.url,
        "--\n".data, by simp [List.append_assoc]⟩
    have hchunk : (')' :: ("\n\n".data ++ summary ++ "\n\n-".data)) <:+: chunk :=
      hmem.trans hinf
    have hgl : (')' :: ("\n\n".data ++ summary ++ "\n\n-".data)).getLast? = some '-' := by
      have hre : (')' :: ("\n\n".data ++ summary ++ "\n\n-".data))
          = (')' :: ("\n\n".data ++ summary)) ++ "\n\n-".data := by
        simp [List.append_assoc]
      rw [hre, List.getLast?_append_of_ne_nil _ (by decide)]
      decide
    have hstrip : (')' :: ("\n\n".data ++ summary ++ "\n\n-".data)) <:+: pyStrip chunk :=
      strip_keeps_solid (u := ')' :: ("\n\n".data ++ summary ++ "\n\n-".data))
        ')' '-' rfl (by decide) hgl (by decide) hchunk
    have hcnt : (')' :: ("\n\n".data ++ summary ++ "\n\n-".data)).count '\n'
        ≤ (pyStrip chunk).count '\n' :=
      List.Sublist.count_le ( List.IsInfix.sublist hstrip) '\n'
    have hfour : 4 ≤ (')' :: ("\n\n".data ++ summary ++ "\n\n-".data)).count '\n' := by
      have e1 : ("\n\n".data).count '\n' = 2 := by decide
      have e2 : ("\n\n-".data).count '\n' = 2 := by decide
      have e3 : ((')' : Char) == '\n') = false := by decide
      simp only [List.count_cons, List.count_append, e1, e2, e3, if_false]
      omega
    have hgt : ¬((pyStrip chunk).count '\n' ≤ 2) := by omega
    unfold unprocessedCheck
    rw [decide_eq_false hgt]
    simp
  · intro content e he
    obtain ⟨h, b, _, _, h2, h3, _⟩ := extractLoop_sound (pySplit content) e he
    exact ⟨h, b, h2, h3⟩

/-- Claim C8, witness instances for both parts at concrete inputs: the
replacement block itself fails the unprocessed test, and scenario A extraction
returns an entry whose chunk passes it. -/
theorem c8_rewritten_block_witness :
    unprocessedCheck
        (newSection ⟨[], "t".data, "https://e.com".data, "f".data⟩ "S".data) = false ∧
    (∃ h b, (⟨[], "My Link".data, "https://example.com".data,
          "###### 2024-01-01\n[My Link](https://example.com)\n".data⟩ :
            SectionInfo).full_section = h ++ b ∧ unprocessedCheck b = true) :=
  ⟨c8_rewritten_block_fails_check.1 ⟨[], "t".data, "https://e.com".data, "f".data⟩
      "S".data _ List.infix_rfl,
    c8_rewritten_block_fails_check.2
      "###### 2024-01-01\n[My Link](https://example.com)\n".data
      ⟨[], "My Link".data, "https://example.com".data,
        "###### 2024-01-01\n[My Link](https://example.com)\n".data⟩ (by decide)⟩

/-- Claim C9.  When the transcription tool runs without raising and the
output file is absent, the transcript backend returns (it is modelled as a
total function) an error string containing `Transcription output not found`,
and the rewrite treats that string exactly as it treats any summary: it
substitutes it into the same replacement block. -/
theorem c9_missing_transcript_error_string :
    ∀ (env : TranscriptEnv) (url : List Char), env.runErr = none → env.outTxt = none →
      containsSub "Transcription output not found".data (process_instagram env url) = true ∧
      ∀ (content : List Char) (info : SectionInfo),
        update_file_with_processed_section content info (process_instagram env url)
          = pyReplace content info.full_section
              (newSection info (process_instagram env url)) := by
  intro env url h1 h2
  obtain ⟨re, ot, st, rs⟩ := env
  obtain rfl : re = none := h1
  obtain rfl : ot = none := h2
  constructor
  · show containsSub "Transcription output not found".data
      "Error processing Instagram content: Transcription output not found at transcription_output/out.txt".data = true
    decide
  · intro content info
    rfl

/-- Claim C9, witness instance at a concrete environment and URL. -/
theorem c9_missing_transcript_witness :
    containsSub "Transcription output not found".data
        (process_instagram ⟨none, none, 200, []⟩
          "https://www.youtube.com/watch?v=x".data) = true ∧
    update_file_with_processed_section "n".data
        ⟨[], "t".data, "https://e.com".data, "f".data⟩
        (process_instagram ⟨none, none, 200, []⟩ "https://www.youtube.com/watch?v=x".data)
      = pyReplace "n".data "f".data
          (newSection ⟨[], "t".data, "https://e.com".data, "f".data⟩
            (process_instagram ⟨none, none, 200, []⟩
              "https://www.youtube.com/watch?v=x".data)) :=
  ⟨(c9_missing_transcript_error_string ⟨none, none, 200, []⟩
      "https://www.youtube.com/watch?v=x".data rfl rfl).1,
    (c9_missing_transcript_error_string ⟨none, none, 200, []⟩
      "https://www.youtube.com/watch?v=x".data rfl rfl).2 "n".data
      ⟨[], "t".data, "https://e.com".data, "f".data⟩⟩

/-- Claim C10.  Every section matched by the splitting regex ends with a
newline whose lookahead sees another heading or the end of the text, so when
the note does not end with a newline, any entry that extraction returns is
followed in the note by a further `######` heading: the final
heading-delimited entry is never returned.  The second conjunct is the
concrete instance of the claim: the scenario-A note without its trailing
newline yields no entry at all. -/
theorem c10_no_trailing_newline_skips_last :
    (∀ (content : List Char) (e : SectionInfo), content.getLast? ≠ some '\n' →
        extract_unprocessed_section content = some e →
          ∃ p q, content = p ++ e.full_section ++ q ∧
            "######".data.isPrefixOf q = true) ∧
    extract_unprocessed_section
        "###### 2024-01-01\n[My Link](https://example.com)".data = none := by
  constructor
  · intro content e hnl he
    obtain ⟨h, b, hmem, hh, hfull, hchk, hlink⟩ :=
      extractLoop_sound (pySplit content) e he
    obtain ⟨p, q, heq, hbne, hblast, hlook⟩ :=
      pySplitGo_pairs (content.length + 1) [] content h b hmem
    simp only [List.reverse_nil, List.nil_append] at heq
    rcases (Bool.or_eq_true _ _).mp hlook with hqe | hqp
    · exfalso
      apply hnl
      have hq : q = [] := by simpa [List.isEmpty_iff] using hqe
      subst hq
      rw [heq]
      simp only [List.append_nil]
      rw [List.getLast?_append_of_ne_nil _ hbne]
      exact hblast
    · refine ⟨p, q, ?_, hqp⟩
      rw [heq, hfull]
      simp [List.append_assoc]
  · decide

/-- Claim C10, witness instance: a two-entry note without a trailing newline
on which extraction returns the first entry, which is indeed followed by a
further heading. -/
theorem c10_no_trailing_newline_witness :
    ∃ p q, "###### A\n[x](https://e.com)\n###### B\nq".data
        = p ++ (⟨[], "x".data, "https://e.com".data,
            "###### A\n[x](https://e.com)\n".data⟩ : SectionInfo).full_section ++ q ∧
      "######".data.isPrefixOf q = true :=
  c10_no_trailing_newline_skips_last.1
    "###### A\n[x](https://e.com)\n###### B\nq".data
    ⟨[], "x".data, "https://e.com".data, "###### A\n[x](https://e.com)\n".data⟩
    (by decide) (by decide)

end QuickNote
